import Mathlib

/-!
Verification of the text-batching and narration pipeline of
`src/backend/main.py` (Narrator API).

The Python functions are shallowly embedded over `List Char`:

* `stripChars`        — Python `str.strip()`;
* `normGo`/`normNewlines` — `re.sub(r"\s*\n+\s*", " ", ·)`: every maximal
  whitespace run that contains a newline is replaced by a single space
  (a run with no newline matches the pattern nowhere, since `\n+` needs
  one newline, and is left unchanged);
* `splitGo`/`splitSentences` — `re.split(r'(?<=[.!?])\s+', ·)`: the string
  is cut at every maximal whitespace run whose preceding character is
  `.`, `!` or `?`, and the run itself is dropped;
* `batchesLoop`/`split_into_batches` — the greedy packing loop of
  `_split_into_batches`;
* `generate_text`, `processTtsBatch`, `narrate`, `lifespan_startup` — the
  request handlers, with the external HTTP/TTS calls abstracted as
  oracles (`upstream`, `tts`) and `asyncio.gather` over independent pure
  tasks rendered as `List.map`, which preserves order and per-element
  independence.
-/

/-- Whitespace test used by Python's `str.strip` and the regex class `\s`
for the ASCII characters that can occur here: space, tab, newline,
carriage return, vertical tab, form feed. -/
def pyIsSpace (c : Char) : Bool :=
  c == ' ' || c == '\t' || c == '\n' || c == '\r' || c == Char.ofNat 11 || c == Char.ofNat 12

/-- The sentence-terminating characters of the lookbehind `(?<=[.!?])`. -/
def isSentEnd (c : Char) : Bool :=
  c == '.' || c == '!' || c == '?'

/-- Python `str.strip()`: remove leading and trailing whitespace. -/
def stripChars (l : List Char) : List Char :=
  ((l.dropWhile pyIsSpace).reverse.dropWhile pyIsSpace).reverse

/-- Scanner for `re.sub(r"\s*\n+\s*", " ", ·)`.  The state is `none`
outside a whitespace run, and `some (sawNL, buf)` inside one, where
`sawNL` records whether the run contains a newline and `buf` holds the
run's characters in reverse.  On leaving a run, the run is emitted as a
single space when it contained a newline and verbatim otherwise. -/
def normGo : List Char → Option (Bool × List Char) → List Char
  | [], none => []
  | [], some st => if st.1 then [' '] else st.2.reverse
  | c :: rest, none =>
    if pyIsSpace c then normGo rest (some (c == '\n', [c]))
    else c :: normGo rest none
  | c :: rest, some st =>
    if pyIsSpace c then normGo rest (some (st.1 || c == '\n', c :: st.2))
    else (if st.1 then [' '] else st.2.reverse) ++ c :: normGo rest none

/-- `re.sub(r"\s*\n+\s*", " ", l)`. -/
def normNewlines (l : List Char) : List Char :=
  normGo l none

/-- `re.sub(r"\s*\n+\s*", " ", text.strip())`, line 136 of the source. -/
def normalizeText (l : List Char) : List Char :=
  normNewlines (stripChars l)

/-- Scanner for `re.split(r'(?<=[.!?])\s+', ·)`.  The state is
`some acc` while a piece is being built (`acc` holds its characters in
reverse, so `acc.head?` is the character just before the scan position,
i.e. the lookbehind), and `none` while the whitespace of a match is
being consumed. -/
def splitGo : List Char → Option (List Char) → List (List Char)
  | [], none => [[]]
  | [], some acc => [acc.reverse]
  | c :: rest, none =>
    if pyIsSpace c then splitGo rest none
    else splitGo rest (some [c])
  | c :: rest, some acc =>
    if pyIsSpace c && acc.head?.any isSentEnd then
      acc.reverse :: splitGo rest none
    else
      splitGo rest (some (c :: acc))

/-- `re.split(r'(?<=[.!?])\s+', l)`, line 137 of the source. -/
def splitSentences (l : List Char) : List (List Char) :=
  splitGo l (some [])

/-- The greedy packing loop of `_split_into_batches` (lines 138-152):
skip sentences that strip to nothing; flush the current batch when it is
non-empty and adding the next sentence plus a joining space would exceed
the budget; otherwise append the sentence to the current batch. -/
def batchesLoop (maxChars : Nat) : List (List Char) → List Char → List (List Char)
  | [], cur => if cur.isEmpty then [] else [cur]
  | s :: rest, cur =>
    let t := stripChars s
    if t.isEmpty then batchesLoop maxChars rest cur
    else if ¬cur.isEmpty ∧ maxChars < cur.length + t.length + 1 then
      cur :: batchesLoop maxChars rest t
    else
      batchesLoop maxChars rest (if cur.isEmpty then t else stripChars (cur ++ ' ' :: t))

/-- `_split_into_batches(text, max_chars)` (lines 135-152). -/
def split_into_batches (text : List Char) (maxChars : Nat := 200) : List (List Char) :=
  batchesLoop maxChars (splitSentences (normalizeText text)) []

/-- Word scanner: `wordsGo l acc` returns the maximal whitespace-free
runs of `acc.reverse ++ l`, where `acc` is the (reversed) word in
progress.  `wordsOf l = wordsGo l []` is the list of words of `l`. -/
def wordsGo : List Char → List Char → List (List Char)
  | [], acc => if acc.isEmpty then [] else [acc.reverse]
  | c :: rest, acc =>
    if pyIsSpace c then (if acc.isEmpty then [] else [acc.reverse]) ++ wordsGo rest []
    else wordsGo rest (c :: acc)

/-- The words (maximal whitespace-free runs) of a string. -/
def wordsOf (l : List Char) : List (List Char) :=
  wordsGo l []

/-- Join a list of chunks with single separating spaces
(`" ".join(...)`). -/
def joinSpace : List (List Char) → List Char
  | [] => []
  | [s] => s
  | s :: rest => s ++ ' ' :: joinSpace rest

/-- Concatenation of a list of lists. -/
def catAll {α : Type} : List (List α) → List α
  | [] => []
  | x :: xs => x ++ catAll xs

/-- Full whitespace normalization: every maximal whitespace run becomes
a single space and outer whitespace is removed; this is the
"normalize whitespace and newlines to single spaces" operation of the
specification, realised as joining the words with single spaces. -/
def pyRenorm (l : List Char) : List Char :=
  joinSpace (wordsOf l)

/-- The sentences that survive the loop's `strip`-and-skip step:
each stripped, the empty ones dropped. -/
def cleanSents (ss : List (List Char)) : List (List Char) :=
  (ss.map stripChars).filter (fun s => !s.isEmpty)

/-- A well-formed stripped sentence: non-empty, no outer whitespace. -/
def okSent (s : List Char) : Prop :=
  s ≠ [] ∧ (∀ c, s.head? = some c → pyIsSpace c = false) ∧
    (∀ c, s.getLast? = some c → pyIsSpace c = false)

/-- A well-formed batch group: a list of well-formed sentences. -/
def okGroup (g : List (List Char)) : Prop :=
  ∀ s ∈ g, okSent s

/- ### The request handlers -/

/-- Python truthiness of an optional string: `None` and `""` are falsy. -/
def pyTruthy : Option (List Char) → Bool
  | none => false
  | some l => !l.isEmpty

/-- The error raised by FastAPI handlers: an HTTP status code plus a
detail string. -/
structure HTTPError where
  status_code : Nat
  detail : List Char
deriving DecidableEq

/-- The body of a `POST /api/narrate` request: optional `message`,
optional `text`, and a model identifier. -/
structure NarrateRequest where
  message : Option (List Char)
  text : Option (List Char)
  model : List Char

/-- One element of `NarrateResponse.segments`.  The audio payload is
abstracted by a type parameter (the code stores a base64 string of the
synthesized bytes). -/
structure SegmentR (α : Type) where
  text : List Char
  audio : Option α
  audio_type : List Char
  error : Option (List Char)
deriving DecidableEq

def wavType : List Char := "audio/wav".toList

def ttsFailDetail : List Char := "TTS generation failed".toList

def keyMissingDetail : List Char := "Chat service unavailable (API key missing)".toList

def upstreamDetail : List Char := "Upstream chat service error".toList

def internalDetail : List Char := "Internal text generation error".toList

def needTextDetail : List Char := "Either message or text must be provided".toList

def ttsUnavailableDetail : List Char := "TTS service unavailable".toList

/-- `_generate_text` (lines 105-133).  The outbound OpenRouter call is
an oracle: `.ok t` is a successful completion with content `t`,
`.error (some code)` an `httpx.HTTPStatusError` with that response
status, `.error none` any other exception. -/
def generate_text (apiKey : Option (List Char))
    (upstream : Except (Option Nat) (List Char)) : Except HTTPError (List Char) :=
  if pyTruthy apiKey then
    match upstream with
    | .ok t => .ok t
    | .error (some code) => .error ⟨code, upstreamDetail⟩
    | .error none => .error ⟨500, internalDetail⟩
  else .error ⟨503, keyMissingDetail⟩

/-- `_process_tts_batch` (lines 154-176).  The TTS oracle bundles
`client.predict` plus reading and base64-encoding the produced file;
any raised exception is `.error` and yields a segment with no audio and
the fixed error message, a success yields the audio and no error. -/
def processTtsBatch {α : Type} (tts : List Char → Except (List Char) α)
    (text : List Char) : SegmentR α :=
  match tts text with
  | .ok a => { text := text, audio := some a, audio_type := wavType, error := none }
  | .error _ => { text := text, audio := none, audio_type := wavType, error := some ttsFailDetail }

/-- The `narrate` handler (lines 193-212).  `gradioOk` tells whether
`app.state.gradio_client` is non-null; `asyncio.gather` over the
per-batch tasks is order-preserving fan-out/fan-in over independent
pure calls, i.e. `List.map`.  (The code computes the batches before the
client check; both are pure, so the order is immaterial.) -/
def narrate {α : Type} (apiKey : Option (List Char)) (payload : NarrateRequest)
    (upstream : Except (Option Nat) (List Char)) (gradioOk : Bool)
    (tts : List Char → Except (List Char) α) : Except HTTPError (List (SegmentR α)) :=
  match (if pyTruthy payload.text then .ok (payload.text.getD [])
         else if pyTruthy payload.message then generate_text apiKey upstream
         else .error ⟨400, needTextDetail⟩ : Except HTTPError (List Char)) with
  | .error e => .error e
  | .ok t =>
    if gradioOk then .ok ((split_into_batches t 200).map (processTtsBatch tts))
    else .error ⟨503, ttsUnavailableDetail⟩

/-- Application state built by `lifespan` (lines 40-66): only the
gradio client handle matters to the claims; a failed initialisation is
caught and stored as `none`. -/
structure AppState (γ : Type) where
  gradio_client : Option γ
deriving DecidableEq

/-- The startup half of `lifespan` (lines 40-61).  A missing API key is
only logged; a gradio initialisation failure is caught.  Startup itself
always completes and returns a state. -/
def lifespan_startup {γ : Type} (apiKey : Option (List Char))
    (clientInit : Except (List Char) γ) : AppState γ :=
  match apiKey, clientInit with
  | _, .ok c => ⟨some c⟩
  | _, .error _ => ⟨none⟩

/- ### Basic list helper lemmas -/

theorem dropWhile_len_le (p : Char → Bool) : ∀ l : List Char, (l.dropWhile p).length ≤ l.length
  | [] => Nat.le_refl _
  | c :: rest => by
    rw [List.dropWhile_cons]
    split
    · exact Nat.le_succ_of_le (dropWhile_len_le p rest)
    · exact Nat.le_refl _

theorem takeWhile_append_not {p : Char → Bool} {c : Char} (hc : p c = false) (a b : List Char) :
    (a ++ c :: b).takeWhile p = a.takeWhile p := by
  induction a with
  | nil => simp [List.takeWhile_cons, hc]
  | cons x a ih => cases hx : p x <;> simp [List.takeWhile_cons, hx, ih]

theorem dropWhile_append_not {p : Char → Bool} {c : Char} (hc : p c = false) (a b : List Char) :
    (a ++ c :: b).dropWhile p = a.dropWhile p ++ c :: b := by
  induction a with
  | nil => simp [List.dropWhile_cons, hc]
  | cons x a ih => cases hx : p x <;> simp [List.dropWhile_cons, hx, ih]

theorem dropWhile_head_not {p : Char → Bool} {l : List Char} {c : Char}
    (h : (l.dropWhile p).head? = some c) : p c = false := by
  have h2 := List.head?_dropWhile_not p l
  rw [h] at h2
  simpa using h2

theorem dropWhile_getLast_eq {p : Char → Bool} : ∀ {l : List Char},
    l.dropWhile p ≠ [] → (l.dropWhile p).getLast? = l.getLast? := by
  intro l
  induction l with
  | nil => intro h; simp at h
  | cons x rest ih =>
    intro h
    by_cases hx : p x
    · rw [List.dropWhile_cons_of_pos hx] at h ⊢
      rw [ih h]
      have hr : rest ≠ [] := by
        intro he
        rw [he] at h
        simp at h
      cases rest with
      | nil => exact absurd rfl hr
      | cons y t => rw [List.getLast?_cons_cons]
    · rw [List.dropWhile_cons_of_neg hx]

theorem exists_concat_of_ne_nil : ∀ {l : List Char}, l ≠ [] → ∃ a c, l = a ++ [c] := by
  intro l
  induction l with
  | nil => intro h; exact absurd rfl h
  | cons x rest ih =>
    intro _
    cases rest with
    | nil => exact ⟨[], x, rfl⟩
    | cons y t =>
      obtain ⟨a, c, hac⟩ := ih (List.cons_ne_nil y t)
      exact ⟨x :: a, c, by rw [hac, List.cons_append]⟩

theorem getLast_cons_ne_nil {x : Char} {t : List Char} (h : t ≠ []) :
    (x :: t).getLast? = t.getLast? := by
  cases t with
  | nil => exact absurd rfl h
  | cons y r => rw [List.getLast?_cons_cons]

theorem getLast_append_right {a b : List Char} (h : b ≠ []) :
    (a ++ b).getLast? = b.getLast? := by
  induction a with
  | nil => rfl
  | cons x a ih =>
    rw [List.cons_append, getLast_cons_ne_nil (by simp [h]), ih]

theorem head_append_left {a b : List Char} (h : a ≠ []) : (a ++ b).head? = a.head? := by
  cases a with
  | nil => exact absurd rfl h
  | cons x t => rfl

theorem dropLast_cons_ne_nil {α : Type} {x : α} {t : List α} (h : t ≠ []) :
    (x :: t).dropLast = x :: t.dropLast := by
  cases t with
  | nil => exact absurd rfl h
  | cons y r => rfl

/- ### stripChars lemmas -/

theorem strip_concat_not {c : Char} (hc : pyIsSpace c = false) (a : List Char) :
    stripChars (a ++ [c]) = a.dropWhile pyIsSpace ++ [c] := by
  unfold stripChars
  rw [dropWhile_append_not hc, List.reverse_append]
  simp only [List.reverse_cons, List.reverse_nil, List.nil_append, List.singleton_append]
  rw [List.dropWhile_cons_of_neg (by simp [hc])]
  simp

theorem strip_getLast_eq {l : List Char} {c : Char} (hl : l.getLast? = some c)
    (hc : pyIsSpace c = false) : (stripChars l).getLast? = some c := by
  have hne : l ≠ [] := by
    intro he
    rw [he] at hl
    simp at hl
  obtain ⟨a, d, rfl⟩ := exists_concat_of_ne_nil hne
  rw [List.getLast?_concat] at hl
  obtain rfl : d = c := by injection hl
  rw [strip_concat_not hc]
  exact List.getLast?_concat _

theorem strip_ne_nil {l : List Char} {c : Char} (hl : l.getLast? = some c)
    (hc : pyIsSpace c = false) : stripChars l ≠ [] := by
  intro he
  have := strip_getLast_eq hl hc
  rw [he] at this
  simp at this

theorem strip_head_not {l : List Char} {c : Char} (h : (stripChars l).head? = some c) :
    pyIsSpace c = false := by
  unfold stripChars at h
  rw [List.head?_reverse] at h
  have hne : (l.dropWhile pyIsSpace).reverse.dropWhile pyIsSpace ≠ [] := by
    intro he
    rw [he] at h
    simp at h
  rw [dropWhile_getLast_eq hne, List.getLast?_reverse] at h
  exact dropWhile_head_not h

theorem strip_last_not {l : List Char} {c : Char} (h : (stripChars l).getLast? = some c) :
    pyIsSpace c = false := by
  unfold stripChars at h
  rw [List.getLast?_reverse] at h
  exact dropWhile_head_not h

theorem strip_eq_self {l : List Char}
    (h1 : ∀ c, l.head? = some c → pyIsSpace c = false)
    (h2 : ∀ c, l.getLast? = some c → pyIsSpace c = false) : stripChars l = l := by
  cases hl : l with
  | nil => rfl
  | cons x rest =>
    obtain ⟨a, c, hac⟩ := exists_concat_of_ne_nil (hl ▸ List.cons_ne_nil x rest)
    rw [← hl, hac]
    rw [strip_concat_not (h2 c (by rw [hac]; exact List.getLast?_concat a))]
    congr 1
    cases a with
    | nil => rfl
    | cons y t =>
      have hy : pyIsSpace y = false := h1 y (by rw [hac]; rfl)
      rw [List.dropWhile_cons_of_neg (by simp [hy])]

theorem strip_len_le (l : List Char) : (stripChars l).length ≤ l.length := by
  unfold stripChars
  rw [List.length_reverse]
  calc ((l.dropWhile pyIsSpace).reverse.dropWhile pyIsSpace).length
      ≤ (l.dropWhile pyIsSpace).reverse.length := dropWhile_len_le _ _
    _ = (l.dropWhile pyIsSpace).length := List.length_reverse _
    _ ≤ l.length := dropWhile_len_le _ _

theorem strip_allspace {l : List Char} (h : ∀ x ∈ l, pyIsSpace x = true) :
    stripChars l = [] := by
  have hd : l.dropWhile pyIsSpace = [] := by
    induction l with
    | nil => rfl
    | cons x rest ih =>
      rw [List.dropWhile_cons_of_pos (h x (List.mem_cons_self x rest))]
      exact ih (fun y hy => h y (List.mem_cons_of_mem x hy))
  unfold stripChars
  rw [hd]
  rfl

/- ### wordsOf lemmas -/

theorem wordsGo_append_space {c : Char} (hc : pyIsSpace c = true) (b : List Char) :
    ∀ (a acc : List Char), wordsGo (a ++ c :: b) acc = wordsGo a acc ++ wordsGo b [] := by
  intro a
  induction a with
  | nil =>
    intro acc
    cases acc <;> simp [wordsGo, hc]
  | cons x a ih =>
    intro acc
    by_cases hx : pyIsSpace x
    · simp [wordsGo, hx, ih]
    · simp [wordsGo, hx, ih]

theorem wordsOf_append_space {c : Char} (hc : pyIsSpace c = true) (a b : List Char) :
    wordsOf (a ++ c :: b) = wordsOf a ++ wordsOf b :=
  wordsGo_append_space hc b a []

theorem wordsGo_allspace {l : List Char} (h : ∀ x ∈ l, pyIsSpace x = true) :
    wordsGo l [] = [] := by
  induction l with
  | nil => rfl
  | cons x rest ih =>
    simp [wordsGo, h x (List.mem_cons_self x rest),
      ih (fun y hy => h y (List.mem_cons_of_mem x hy))]

theorem wordsGo_allspace_append {s : List Char} (t : List Char)
    (h : ∀ x ∈ s, pyIsSpace x = true) : wordsGo (s ++ t) [] = wordsGo t [] := by
  induction s with
  | nil => rfl
  | cons x rest ih =>
    simp [wordsGo, h x (List.mem_cons_self x rest),
      ih (fun y hy => h y (List.mem_cons_of_mem x hy))]

theorem wordsOf_append_allspace {s t : List Char} (h : ∀ x ∈ t, pyIsSpace x = true) :
    wordsOf (s ++ t) = wordsOf s := by
  cases t with
  | nil => rw [List.append_nil]
  | cons c rest =>
    rw [wordsOf, wordsGo_append_space (h c (List.mem_cons_self c rest)) rest s []]
    rw [wordsGo_allspace (fun y hy => h y (List.mem_cons_of_mem c hy))]
    rw [List.append_nil]
    rfl

theorem wordsOf_dropWhile (l : List Char) :
    wordsOf (l.dropWhile pyIsSpace) = wordsOf l := by
  induction l with
  | nil => rfl
  | cons x rest ih =>
    by_cases hx : pyIsSpace x
    · rw [List.dropWhile_cons_of_pos hx, ih]
      simp [wordsOf, wordsGo, hx]
    · rw [List.dropWhile_cons_of_neg hx]

theorem wordsOf_strip (l : List Char) : wordsOf (stripChars l) = wordsOf l := by
  have hsplit : l.dropWhile pyIsSpace =
      stripChars l ++ ((l.dropWhile pyIsSpace).reverse.takeWhile pyIsSpace).reverse := by
    unfold stripChars
    conv_lhs =>
      rw [← List.reverse_reverse (l.dropWhile pyIsSpace),
        ← List.takeWhile_append_dropWhile pyIsSpace (l.dropWhile pyIsSpace).reverse]
    rw [List.reverse_append]
  have h1 : wordsOf (l.dropWhile pyIsSpace) = wordsOf (stripChars l) := by
    rw [hsplit]
    exact wordsOf_append_allspace (fun x hx =>
      List.mem_takeWhile_imp (List.mem_reverse.mp hx))
  rw [← h1, wordsOf_dropWhile]

theorem wordsGo_all_nonspace {w : List Char} (hw : ∀ x ∈ w, pyIsSpace x = false) :
    ∀ (r acc : List Char), wordsGo (w ++ r) acc = wordsGo r (w.reverse ++ acc) := by
  induction w with
  | nil => intro r acc; rfl
  | cons x rest ih =>
    intro r acc
    rw [List.cons_append]
    show wordsGo (x :: (rest ++ r)) acc = _
    rw [wordsGo]
    simp only [hw x (List.mem_cons_self x rest), Bool.false_eq_true, if_false]
    rw [ih (fun y hy => hw y (List.mem_cons_of_mem x hy)) r (x :: acc)]
    simp

theorem wordsGo_flush {t : List Char} (acc : List Char)
    (ht : t = [] ∨ ∃ d r, t = d :: r ∧ pyIsSpace d = true) :
    wordsGo t acc = (if acc.isEmpty then [] else [acc.reverse]) ++ wordsGo t [] := by
  rcases ht with rfl | ⟨d, r, rfl, hd⟩
  · cases acc <;> simp [wordsGo]
  · cases acc <;> simp [wordsGo, hd]

/- ### normNewlines lemmas -/

theorem normGo_no_nl : ∀ l : List Char,
    ('\n' ∉ l → normGo l none = l) ∧
    (∀ buf : List Char, '\n' ∉ l → normGo l (some (false, buf)) = buf.reverse ++ l) := by
  intro l
  induction l with
  | nil =>
    refine ⟨fun _ => rfl, fun buf _ => ?_⟩
    simp [normGo]
  | cons c rest ih =>
    have hsplitmem : '\n' ∉ c :: rest → c ≠ '\n' ∧ '\n' ∉ rest := by
      intro h
      exact ⟨fun he => h (he ▸ List.mem_cons_self c rest),
        fun hm => h (List.mem_cons_of_mem c hm)⟩
    constructor
    · intro h
      obtain ⟨hc, hrest⟩ := hsplitmem h
      by_cases hcs : pyIsSpace c
      · have hb : (c == '\n') = false := by simp [hc]
        simp only [normGo, hcs, if_true, hb]
        rw [(ih.2 [c] hrest)]
        rfl
      · simp [normGo, hcs, ih.1 hrest]
    · intro buf h
      obtain ⟨hc, hrest⟩ := hsplitmem h
      by_cases hcs : pyIsSpace c
      · have hb : (c == '\n') = false := by simp [hc]
        simp only [normGo, hcs, if_true, hb, Bool.or_false]
        rw [(ih.2 (c :: buf) hrest)]
        simp
      · simp [normGo, hcs, ih.1 hrest]

theorem normNewlines_no_nl {l : List Char} (h : '\n' ∉ l) : normNewlines l = l :=
  (normGo_no_nl l).1 h

theorem normGo_some_head : ∀ (l : List Char) (s : Bool) (buf : List Char), buf ≠ [] →
    (∀ x ∈ buf, pyIsSpace x = true) →
    (normGo l (some (s, buf)) = [] ∨
      ∃ d t, normGo l (some (s, buf)) = d :: t ∧ pyIsSpace d = true) := by
  intro l
  induction l with
  | nil =>
    intro s buf hne hbuf
    by_cases hs : s
    · right
      exact ⟨' ', [], by simp [normGo, hs], by decide⟩
    · cases hbr : buf.reverse with
      | nil => exact absurd (by simpa using congrArg List.reverse hbr) hne
      | cons d t =>
        right
        refine ⟨d, t, by simp [normGo, hs, hbr], ?_⟩
        exact hbuf d (List.mem_reverse.mp (hbr ▸ List.mem_cons_self d t))
  | cons c rest ih =>
    intro s buf hne hbuf
    by_cases hcs : pyIsSpace c
    · rw [show normGo (c :: rest) (some (s, buf)) =
        normGo rest (some (s || c == '\n', c :: buf)) from by simp [normGo, hcs]]
      refine ih _ (c :: buf) (by simp) ?_
      intro x hx
      rcases List.mem_cons.mp hx with rfl | hx
      · exact hcs
      · exact hbuf x hx
    · rw [show normGo (c :: rest) (some (s, buf)) =
        (if s then [' '] else buf.reverse) ++ c :: normGo rest none from by simp [normGo, hcs]]
      by_cases hs : s
      · right
        exact ⟨' ', c :: normGo rest none, by simp [hs], by decide⟩
      · cases hbr : buf.reverse with
        | nil => exact absurd (by simpa using congrArg List.reverse hbr) hne
        | cons d t =>
          right
          refine ⟨d, t ++ c :: normGo rest none, by simp [hs, hbr], ?_⟩
          exact hbuf d (List.mem_reverse.mp (hbr ▸ List.mem_cons_self d t))

theorem normGo_words : ∀ l : List Char,
    (∀ acc, (∀ x ∈ acc, pyIsSpace x = false) →
      wordsGo (normGo l none) acc = wordsGo l acc) ∧
    (∀ s buf, (∀ x ∈ buf, pyIsSpace x = true) → buf ≠ [] →
      wordsGo (normGo l (some (s, buf))) [] = wordsGo l []) := by
  intro l
  induction l with
  | nil =>
    constructor
    · intro acc _
      rfl
    · intro s buf hbuf hne
      have hflush : normGo [] (some (s, buf)) = if s then [' '] else buf.reverse := rfl
      rw [hflush]
      by_cases hs : s
      · rw [if_pos hs, wordsGo_allspace (by intro x hx; simp at hx; subst hx; decide)]
        rfl
      · rw [if_neg hs, wordsGo_allspace (fun x hx => hbuf x (List.mem_reverse.mp hx))]
        rfl
  | cons c rest ih =>
    constructor
    · intro acc hacc
      by_cases hc : pyIsSpace c
      · rw [show normGo (c :: rest) none = normGo rest (some (c == '\n', [c])) from by
          simp [normGo, hc]]
        have hhead := normGo_some_head rest (c == '\n') [c] (by simp)
          (by intro x hx; simp at hx; subst hx; exact hc)
        rw [wordsGo_flush acc hhead]
        rw [ih.2 (c == '\n') [c] (by intro x hx; simp at hx; subst hx; exact hc) (by simp)]
        simp [wordsGo, hc]
      · rw [show normGo (c :: rest) none = c :: normGo rest none from by simp [normGo, hc]]
        have h1 : wordsGo (c :: normGo rest none) acc = wordsGo (normGo rest none) (c :: acc) := by
          simp [wordsGo, hc]
        have h2 : wordsGo (c :: rest) acc = wordsGo rest (c :: acc) := by
          simp [wordsGo, hc]
        rw [h1, h2]
        refine ih.1 (c :: acc) ?_
        intro x hx
        rcases List.mem_cons.mp hx with rfl | hx
        · simpa using hc
        · exact hacc x hx
    · intro s buf hbuf hne
      by_cases hc : pyIsSpace c
      · rw [show normGo (c :: rest) (some (s, buf)) =
          normGo rest (some (s || c == '\n', c :: buf)) from by simp [normGo, hc]]
        rw [ih.2 _ (c :: buf) (by
          intro x hx
          rcases List.mem_cons.mp hx with rfl | hx
          · exact hc
          · exact hbuf x hx) (by simp)]
        simp [wordsGo, hc]
      · rw [show normGo (c :: rest) (some (s, buf)) =
          (if s then [' '] else buf.reverse) ++ c :: normGo rest none from by
          simp [normGo, hc]]
        rw [wordsGo_allspace_append (c :: normGo rest none) (by
          by_cases hs : s
          · intro x hx
            simp [hs] at hx
            subst hx
            decide
          · intro x hx
            simp [hs] at hx
            exact hbuf x hx)]
        have h1 : wordsGo (c :: normGo rest none) [] = wordsGo (normGo rest none) [c] := by
          simp [wordsGo, hc]
        have h2 : wordsGo (c :: rest) [] = wordsGo rest [c] := by
          simp [wordsGo, hc]
        rw [h1, h2]
        refine ih.1 [c] ?_
        intro x hx
        simp at hx
        subst hx
        simpa using hc

theorem wordsOf_normNewlines (l : List Char) : wordsOf (normNewlines l) = wordsOf l :=
  (normGo_words l).1 [] (by intro x hx; simp at hx)

theorem wordsOf_normalizeText (l : List Char) : wordsOf (normalizeText l) = wordsOf l := by
  rw [normalizeText, wordsOf_normNewlines, wordsOf_strip]

/- ### splitGo lemmas -/

theorem splitGo_ne_nil : ∀ (l : List Char) (st : Option (List Char)), splitGo l st ≠ [] := by
  intro l
  induction l with
  | nil => intro st; cases st <;> simp [splitGo]
  | cons c rest ih =>
    intro st
    cases st with
    | none => by_cases hc : pyIsSpace c <;> simp [splitGo, hc, ih]
    | some acc =>
      by_cases hcond : (pyIsSpace c && acc.head?.any isSentEnd) = true
      · simp [splitGo, hcond]
      · simp [splitGo, hcond, ih]

theorem splitGo_words : ∀ l : List Char,
    (catAll ((splitGo l none).map wordsOf) = wordsOf l) ∧
    (∀ acc, catAll ((splitGo l (some acc)).map wordsOf) = wordsOf (acc.reverse ++ l)) := by
  intro l
  induction l with
  | nil =>
    constructor
    · rfl
    · intro acc
      simp [splitGo, catAll]
  | cons c rest ih =>
    constructor
    · by_cases hc : pyIsSpace c
      · rw [show splitGo (c :: rest) none = splitGo rest none from by simp [splitGo, hc]]
        rw [ih.1]
        simp [wordsOf, wordsGo, hc]
      · rw [show splitGo (c :: rest) none = splitGo rest (some [c]) from by simp [splitGo, hc]]
        rw [ih.2 [c]]
        rfl
    · intro acc
      by_cases hcond : (pyIsSpace c && acc.head?.any isSentEnd) = true
      · obtain ⟨hsp, _⟩ := Bool.and_eq_true_iff.mp hcond
        rw [show splitGo (c :: rest) (some acc) = acc.reverse :: splitGo rest none from by
          simp [splitGo, hcond]]
        rw [List.map_cons, catAll, ih.1, wordsOf_append_space hsp]
      · rw [show splitGo (c :: rest) (some acc) = splitGo rest (some (c :: acc)) from by
          simp [splitGo, hcond]]
        rw [ih.2 (c :: acc)]
        simp

theorem splitGo_dropLast : ∀ (l : List Char) (st : Option (List Char)),
    ∀ p ∈ (splitGo l st).dropLast, p.getLast?.any isSentEnd = true := by
  intro l
  induction l with
  | nil => intro st p hp; cases st <;> simp [splitGo] at hp
  | cons c rest ih =>
    intro st p hp
    cases st with
    | none =>
      by_cases hc : pyIsSpace c
      · rw [show splitGo (c :: rest) none = splitGo rest none from by simp [splitGo, hc]] at hp
        exact ih none p hp
      · rw [show splitGo (c :: rest) none = splitGo rest (some [c]) from by
          simp [splitGo, hc]] at hp
        exact ih (some [c]) p hp
    | some acc =>
      by_cases hcond : (pyIsSpace c && acc.head?.any isSentEnd) = true
      · obtain ⟨_, hse⟩ := Bool.and_eq_true_iff.mp hcond
        rw [show splitGo (c :: rest) (some acc) = acc.reverse :: splitGo rest none from by
          simp [splitGo, hcond]] at hp
        rw [dropLast_cons_ne_nil (splitGo_ne_nil rest none)] at hp
        rcases List.mem_cons.mp hp with rfl | hp
        · rw [List.getLast?_reverse]
          exact hse
        · exact ih none p hp
      · rw [show splitGo (c :: rest) (some acc) = splitGo rest (some (c :: acc)) from by
          simp [splitGo, hcond]] at hp
        exact ih (some (c :: acc)) p hp

theorem splitGo_append : ∀ (xs acc : List Char),
    splitGo xs (some acc) = [acc.reverse ++ xs] →
    ∀ ys, splitGo (xs ++ ys) (some acc) = splitGo ys (some (xs.reverse ++ acc)) := by
  intro xs
  induction xs with
  | nil =>
    intro acc _ ys
    simp
  | cons c rest ih =>
    intro acc h ys
    by_cases hcond : (pyIsSpace c && acc.head?.any isSentEnd) = true
    · exfalso
      rw [show splitGo (c :: rest) (some acc) = acc.reverse :: splitGo rest none from by
        simp [splitGo, hcond]] at h
      injection h with h1 h2
      exact splitGo_ne_nil rest none h2
    · rw [show splitGo (c :: rest) (some acc) = splitGo rest (some (c :: acc)) from by
        simp [splitGo, hcond]] at h
      have h' : splitGo rest (some (c :: acc)) = [(c :: acc).reverse ++ rest] := by
        rw [h]
        simp
      rw [show splitGo ((c :: rest) ++ ys) (some acc) = splitGo (rest ++ ys) (some (c :: acc))
        from by simp [splitGo, hcond]]
      rw [ih (c :: acc) h' ys]
      congr 1
      simp

/- ### joinSpace lemmas -/

theorem wordsOf_joinSpace : ∀ ps : List (List Char),
    wordsOf (joinSpace ps) = catAll (ps.map wordsOf) := by
  intro ps
  induction ps with
  | nil => rfl
  | cons p ps ih =>
    cases ps with
    | nil => simp [joinSpace, catAll]
    | cons q rest =>
      rw [show joinSpace (p :: q :: rest) = p ++ ' ' :: joinSpace (q :: rest) from rfl]
      rw [wordsOf_append_space (by decide), ih]
      simp [catAll]

theorem joinSpace_concat {g : List (List Char)} (hg : g ≠ []) (x : List Char) :
    joinSpace (g ++ [x]) = joinSpace g ++ ' ' :: x := by
  induction g with
  | nil => exact absurd rfl hg
  | cons p g ih =>
    cases g with
    | nil => rfl
    | cons q rest =>
      rw [show joinSpace (p :: q :: rest ++ [x]) = p ++ ' ' :: joinSpace (q :: rest ++ [x])
        from rfl]
      rw [ih (List.cons_ne_nil q rest)]
      rw [show joinSpace (p :: q :: rest) = p ++ ' ' :: joinSpace (q :: rest) from rfl]
      simp

theorem okSent_strip {s : List Char} (h : stripChars s ≠ []) : okSent (stripChars s) :=
  ⟨h, fun _ hc => strip_head_not hc, fun _ hc => strip_last_not hc⟩

theorem joinSpace_ne_nil {g : List (List Char)} (hok : okGroup g) (hg : g ≠ []) :
    joinSpace g ≠ [] := by
  cases g with
  | nil => exact absurd rfl hg
  | cons p rest =>
    have hp : p ≠ [] := (hok p (List.mem_cons_self p rest)).1
    cases rest with
    | nil => exact hp
    | cons q t => simp [joinSpace, hp]

theorem joinSpace_head {g : List (List Char)} (hok : okGroup g) (hg : g ≠ []) :
    ∀ c, (joinSpace g).head? = some c → pyIsSpace c = false := by
  cases g with
  | nil => exact absurd rfl hg
  | cons p rest =>
    have hp := hok p (List.mem_cons_self p rest)
    cases rest with
    | nil =>
      intro c hc
      exact hp.2.1 c hc
    | cons q t =>
      intro c hc
      rw [show joinSpace (p :: q :: t) = p ++ ' ' :: joinSpace (q :: t) from rfl] at hc
      rw [head_append_left hp.1] at hc
      exact hp.2.1 c hc

theorem joinSpace_last : ∀ {g : List (List Char)}, okGroup g → g ≠ [] →
    ∀ c, (joinSpace g).getLast? = some c → pyIsSpace c = false := by
  intro g
  induction g with
  | nil => intro _ hg; exact absurd rfl hg
  | cons p rest ih =>
    intro hok _ c hc
    cases rest with
    | nil => exact (hok p (List.mem_cons_self p [])).2.2 c hc
    | cons q t =>
      have hokrest : okGroup (q :: t) := fun s hs => hok s (List.mem_cons_of_mem p hs)
      rw [show joinSpace (p :: q :: t) = p ++ ' ' :: joinSpace (q :: t) from rfl] at hc
      rw [getLast_append_right (List.cons_ne_nil _ _)] at hc
      rw [getLast_cons_ne_nil (joinSpace_ne_nil hokrest (List.cons_ne_nil q t))] at hc
      exact ih hokrest (List.cons_ne_nil q t) c hc

/- ### batchesLoop step lemmas -/

theorem sentEnd_not_space {c : Char} (h : isSentEnd c = true) : pyIsSpace c = false := by
  rcases (by simpa [isSentEnd] using h : (c = '.' ∨ c = '!') ∨ c = '?') with (rfl | rfl) | rfl <;>
    decide

theorem wordsOf_nil : wordsOf [] = [] := rfl

theorem any_getLast_sentEnd {t : List Char} (h : t.getLast?.any isSentEnd = true) :
    ∃ c, t.getLast? = some c ∧ isSentEnd c = true := by
  cases ht : t.getLast? with
  | none => rw [ht] at h; simp [Option.any] at h
  | some c => exact ⟨c, rfl, by rw [ht] at h; simpa [Option.any] using h⟩

theorem batchesLoop_nil_ne {mc : Nat} {cur : List Char} (hc : cur ≠ []) :
    batchesLoop mc [] cur = [cur] := by
  simp [batchesLoop, List.isEmpty_iff, hc]

theorem batchesLoop_skip {s : List Char} (hs : stripChars s = []) (mc : Nat)
    (rest : List (List Char)) (cur : List Char) :
    batchesLoop mc (s :: rest) cur = batchesLoop mc rest cur := by
  simp [batchesLoop, hs]

theorem batchesLoop_flush {mc : Nat} {s cur : List Char} (hs : stripChars s ≠ [])
    (hcur : cur ≠ []) (hover : mc < cur.length + (stripChars s).length + 1)
    (rest : List (List Char)) :
    batchesLoop mc (s :: rest) cur = cur :: batchesLoop mc rest (stripChars s) := by
  simp [batchesLoop, List.isEmpty_iff, hs, hcur, hover]

theorem batchesLoop_merge_nil {mc : Nat} {s : List Char} (hs : stripChars s ≠ [])
    (rest : List (List Char)) :
    batchesLoop mc (s :: rest) [] = batchesLoop mc rest (stripChars s) := by
  simp [batchesLoop, List.isEmpty_iff, hs]

theorem batchesLoop_merge_fit {mc : Nat} {s cur : List Char} (hs : stripChars s ≠ [])
    (hcur : cur ≠ []) (hfit : cur.length + (stripChars s).length + 1 ≤ mc)
    (rest : List (List Char)) :
    batchesLoop mc (s :: rest) cur =
      batchesLoop mc rest (stripChars (cur ++ ' ' :: stripChars s)) := by
  simp [batchesLoop, List.isEmpty_iff, hs, hcur, Nat.not_lt.mpr hfit]

/- ### batchesLoop lemmas -/

theorem batches_words (mc : Nat) : ∀ (ss : List (List Char)) (cur : List Char),
    catAll ((batchesLoop mc ss cur).map wordsOf) = wordsOf cur ++ catAll (ss.map wordsOf) := by
  intro ss
  induction ss with
  | nil =>
    intro cur
    by_cases hcur : cur = []
    · subst hcur
      simp [batchesLoop, catAll, wordsOf, wordsGo]
    · rw [batchesLoop_nil_ne hcur]
      simp [catAll]
  | cons s rest ih =>
    intro cur
    by_cases hs : stripChars s = []
    · rw [batchesLoop_skip hs, ih]
      have hws : wordsOf s = [] := by rw [← wordsOf_strip s, hs]; rfl
      simp [catAll, hws]
    · have hws : wordsOf (stripChars s) = wordsOf s := wordsOf_strip s
      by_cases hcur : cur = []
      · subst hcur
        rw [batchesLoop_merge_nil hs rest, ih]
        simp [catAll, hws, wordsOf_nil]
      · by_cases hover : mc < cur.length + (stripChars s).length + 1
        · rw [batchesLoop_flush hs hcur hover, List.map_cons, catAll, ih]
          simp [catAll, hws]
        · rw [batchesLoop_merge_fit hs hcur (Nat.le_of_not_lt hover), ih]
          rw [wordsOf_strip, wordsOf_append_space (by decide)]
          simp [catAll, hws]

theorem batchesLoop_mem_ne_nil (mc : Nat) : ∀ (ss : List (List Char)) (cur b : List Char),
    b ∈ batchesLoop mc ss cur → b ≠ [] := by
  intro ss
  induction ss with
  | nil =>
    intro cur b hb
    by_cases hcur : cur = []
    · subst hcur
      simp [batchesLoop] at hb
    · rw [batchesLoop_nil_ne hcur] at hb
      simp at hb
      subst hb
      exact hcur
  | cons s rest ih =>
    intro cur b hb
    by_cases hs : stripChars s = []
    · exact ih cur b (by rwa [batchesLoop_skip hs] at hb)
    · by_cases hcur : cur = []
      · subst hcur
        exact ih _ b (by rwa [batchesLoop_merge_nil hs] at hb)
      · by_cases hover : mc < cur.length + (stripChars s).length + 1
        · rw [batchesLoop_flush hs hcur hover] at hb
          rcases List.mem_cons.mp hb with rfl | hb
          · exact hcur
          · exact ih _ b hb
        · exact ih _ b (by rwa [batchesLoop_merge_fit hs hcur (Nat.le_of_not_lt hover)] at hb)

theorem strip_append_ok {cur s : List Char} (hs : stripChars s ≠ []) :
    stripChars (cur ++ ' ' :: stripChars s) ≠ [] := by
  obtain ⟨a, c, hac⟩ := exists_concat_of_ne_nil hs
  have hlast : (stripChars s).getLast? = some c := by rw [hac]; exact List.getLast?_concat a
  have hcs : pyIsSpace c = false := strip_last_not hlast
  have h2 : (cur ++ ' ' :: stripChars s).getLast? = some c := by
    rw [getLast_append_right (List.cons_ne_nil _ _), getLast_cons_ne_nil hs]
    exact hlast
  exact strip_ne_nil h2 hcs

theorem batchesLoop_ne_nil (mc : Nat) : ∀ (ss : List (List Char)) (cur : List Char),
    cur ≠ [] → batchesLoop mc ss cur ≠ [] := by
  intro ss
  induction ss with
  | nil =>
    intro cur hcur
    rw [batchesLoop_nil_ne hcur]
    simp
  | cons s rest ih =>
    intro cur hcur
    by_cases hs : stripChars s = []
    · rw [batchesLoop_skip hs]
      exact ih cur hcur
    · by_cases hover : mc < cur.length + (stripChars s).length + 1
      · rw [batchesLoop_flush hs hcur hover]
        simp
      · rw [batchesLoop_merge_fit hs hcur (Nat.le_of_not_lt hover)]
        exact ih _ (strip_append_ok hs)

theorem batchesLoop_oversize (mc : Nat) : ∀ (ss : List (List Char)) (cur chunk : List Char),
    chunk ∈ batchesLoop mc ss cur → mc < chunk.length →
    chunk = cur ∨ ∃ s ∈ ss, chunk = stripChars s := by
  intro ss
  induction ss with
  | nil =>
    intro cur chunk hm _
    by_cases hcur : cur = []
    · subst hcur
      simp [batchesLoop] at hm
    · rw [batchesLoop_nil_ne hcur] at hm
      simp at hm
      exact Or.inl hm
  | cons s rest ih =>
    intro cur chunk hm hlen
    by_cases hs : stripChars s = []
    · rcases ih cur chunk (by rwa [batchesLoop_skip hs] at hm) hlen with h | ⟨x, hx, he⟩
      · exact Or.inl h
      · exact Or.inr ⟨x, List.mem_cons_of_mem s hx, he⟩
    · by_cases hcur : cur = []
      · subst hcur
        rw [batchesLoop_merge_nil hs] at hm
        rcases ih _ chunk hm hlen with h | ⟨x, hx, he⟩
        · exact Or.inr ⟨s, List.mem_cons_self s rest, h⟩
        · exact Or.inr ⟨x, List.mem_cons_of_mem s hx, he⟩
      · by_cases hover : mc < cur.length + (stripChars s).length + 1
        · rw [batchesLoop_flush hs hcur hover] at hm
          rcases List.mem_cons.mp hm with rfl | hm
          · exact Or.inl rfl
          · rcases ih _ chunk hm hlen with h | ⟨x, hx, he⟩
            · exact Or.inr ⟨s, List.mem_cons_self s rest, h⟩
            · exact Or.inr ⟨x, List.mem_cons_of_mem s hx, he⟩
        · rw [batchesLoop_merge_fit hs hcur (Nat.le_of_not_lt hover)] at hm
          rcases ih _ chunk hm hlen with h | ⟨x, hx, he⟩
          · exfalso
            have hle : chunk.length ≤ cur.length + (stripChars s).length + 1 := by
              rw [h]
              calc (stripChars (cur ++ ' ' :: stripChars s)).length
                  ≤ (cur ++ ' ' :: stripChars s).length := strip_len_le _
                _ = cur.length + ((stripChars s).length + 1) := by
                    simp [List.length_append, List.length_cons]
                _ = cur.length + (stripChars s).length + 1 := by omega
            omega
          · exact Or.inr ⟨x, List.mem_cons_of_mem s hx, he⟩

theorem cleanSents_cons_nil {s : List Char} (hs : stripChars s = [])
    (rest : List (List Char)) : cleanSents (s :: rest) = cleanSents rest := by
  simp [cleanSents, List.filter_cons, hs]

theorem cleanSents_cons {s : List Char} (hs : stripChars s ≠ [])
    (rest : List (List Char)) : cleanSents (s :: rest) = stripChars s :: cleanSents rest := by
  simp [cleanSents, List.filter_cons, List.isEmpty_iff, hs]

theorem batchesLoop_groups (mc : Nat) : ∀ (ss g0 : List (List Char)), okGroup g0 →
    ∃ gs : List (List (List Char)),
      batchesLoop mc ss (joinSpace g0) = gs.map joinSpace ∧
      catAll gs = g0 ++ cleanSents ss ∧
      ∀ g ∈ gs, g ≠ [] ∧ okGroup g := by
  intro ss
  induction ss with
  | nil =>
    intro g0 hok
    by_cases hg : g0 = []
    · subst hg
      exact ⟨[], by simp [batchesLoop, joinSpace], by simp [catAll, cleanSents], by simp⟩
    · refine ⟨[g0], ?_, ?_, ?_⟩
      · rw [batchesLoop_nil_ne (joinSpace_ne_nil hok hg)]
        rfl
      · simp [catAll, cleanSents]
      · intro g hgm
        rw [List.mem_singleton] at hgm
        subst hgm
        exact ⟨hg, hok⟩
  | cons s rest ih =>
    intro g0 hok
    by_cases hs : stripChars s = []
    · obtain ⟨gs, h1, h2, h3⟩ := ih g0 hok
      refine ⟨gs, ?_, ?_, h3⟩
      · rw [batchesLoop_skip hs]
        exact h1
      · rw [h2, cleanSents_cons_nil hs]
    · have hokt : okSent (stripChars s) := okSent_strip hs
      have hsingle : okGroup [stripChars s] := by
        intro x hx
        rw [List.mem_singleton] at hx
        subst hx
        exact hokt
      by_cases hg : g0 = []
      · subst hg
        obtain ⟨gs, h1, h2, h3⟩ := ih [stripChars s] hsingle
        refine ⟨gs, ?_, ?_, h3⟩
        · rw [show joinSpace ([] : List (List Char)) = [] from rfl]
          rw [batchesLoop_merge_nil hs]
          rw [show joinSpace [stripChars s] = stripChars s from rfl] at h1
          exact h1
        · rw [h2, cleanSents_cons hs]
          simp [catAll]
      · by_cases hover : mc < (joinSpace g0).length + (stripChars s).length + 1
        · obtain ⟨gs, h1, h2, h3⟩ := ih [stripChars s] hsingle
          refine ⟨g0 :: gs, ?_, ?_, ?_⟩
          · rw [batchesLoop_flush hs (joinSpace_ne_nil hok hg) hover]
            rw [List.map_cons]
            rw [show joinSpace [stripChars s] = stripChars s from rfl] at h1
            rw [h1]
          · rw [catAll, h2, cleanSents_cons hs]
            simp [catAll]
          · intro g hgm
            rcases List.mem_cons.mp hgm with rfl | hgm
            · exact ⟨hg, hok⟩
            · exact h3 g hgm
        · have hnew : stripChars (joinSpace g0 ++ ' ' :: stripChars s) =
              joinSpace (g0 ++ [stripChars s]) := by
            rw [joinSpace_concat hg]
            refine strip_eq_self ?_ ?_
            · intro c hc
              rw [head_append_left (joinSpace_ne_nil hok hg)] at hc
              exact joinSpace_head hok hg c hc
            · intro c hc
              rw [getLast_append_right (List.cons_ne_nil _ _)] at hc
              rw [getLast_cons_ne_nil hs] at hc
              exact hokt.2.2 c hc
          have hok2 : okGroup (g0 ++ [stripChars s]) := by
            intro x hx
            rcases List.mem_append.mp hx with hx | hx
            · exact hok x hx
            · rw [List.mem_singleton] at hx
              subst hx
              exact hokt
          obtain ⟨gs, h1, h2, h3⟩ := ih (g0 ++ [stripChars s]) hok2
          refine ⟨gs, ?_, ?_, h3⟩
          · rw [batchesLoop_merge_fit hs (joinSpace_ne_nil hok hg) (Nat.le_of_not_lt hover)]
            rw [hnew]
            exact h1
          · rw [h2, cleanSents_cons hs]
            simp [List.append_assoc]

theorem batchesLoop_dropLast (mc : Nat) : ∀ (ss : List (List Char)) (cur : List Char),
    (∀ s ∈ ss.dropLast, (stripChars s).getLast?.any isSentEnd = true) →
    (cur ≠ [] → (∃ s ∈ ss, stripChars s ≠ []) → cur.getLast?.any isSentEnd = true) →
    ∀ b ∈ (batchesLoop mc ss cur).dropLast, b.getLast?.any isSentEnd = true := by
  intro ss
  induction ss with
  | nil =>
    intro cur _ _ b hb
    by_cases hcur : cur = []
    · subst hcur
      simp [batchesLoop] at hb
    · rw [batchesLoop_nil_ne hcur] at hb
      simp at hb
  | cons s rest ih =>
    intro cur H C b hb
    have Hrest : ∀ x ∈ rest.dropLast, (stripChars x).getLast?.any isSentEnd = true := by
      intro x hx
      cases rest with
      | nil => simp at hx
      | cons q t =>
        refine H x ?_
        rw [dropLast_cons_ne_nil (List.cons_ne_nil q t)]
        exact List.mem_cons_of_mem s hx
    have HsSE : (∃ x ∈ rest, stripChars x ≠ []) →
        (stripChars s).getLast?.any isSentEnd = true := by
      rintro ⟨x, hx, _⟩
      refine H s ?_
      have hrne : rest ≠ [] := by
        intro he
        subst he
        exact absurd hx (List.not_mem_nil x)
      rw [dropLast_cons_ne_nil hrne]
      exact List.mem_cons_self s rest.dropLast
    by_cases hs : stripChars s = []
    · rw [batchesLoop_skip hs] at hb
      refine ih cur Hrest ?_ b hb
      intro hcur hex
      obtain ⟨x, hx, hxne⟩ := hex
      exact C hcur ⟨x, List.mem_cons_of_mem s hx, hxne⟩
    · by_cases hcur : cur = []
      · subst hcur
        rw [batchesLoop_merge_nil hs] at hb
        refine ih (stripChars s) Hrest ?_ b hb
        intro _ hex
        exact HsSE hex
      · by_cases hover : mc < cur.length + (stripChars s).length + 1
        · rw [batchesLoop_flush hs hcur hover] at hb
          rw [dropLast_cons_ne_nil (batchesLoop_ne_nil mc rest (stripChars s) hs)] at hb
          rcases List.mem_cons.mp hb with rfl | hb
          · exact C hcur ⟨s, List.mem_cons_self s rest, hs⟩
          · refine ih (stripChars s) Hrest ?_ b hb
            intro _ hex
            exact HsSE hex
        · rw [batchesLoop_merge_fit hs hcur (Nat.le_of_not_lt hover)] at hb
          refine ih _ Hrest ?_ b hb
          intro _ hex
          obtain ⟨c, hc, hcse⟩ := any_getLast_sentEnd (HsSE hex)
          have h2 : (cur ++ ' ' :: stripChars s).getLast? = some c := by
            rw [getLast_append_right (List.cons_ne_nil _ _), getLast_cons_ne_nil hs]
            exact hc
          rw [strip_getLast_eq h2 (sentEnd_not_space hcse)]
          simpa [Option.any] using hcse

theorem isEmpty_false_of_ne_nil {l : List Char} (h : l ≠ []) : l.isEmpty = false := by
  cases l with
  | nil => exact absurd rfl h
  | cons x t => rfl

/- ### The claims -/

/-- Claim C1: for every input text, first normalizing its whitespace and
newlines to single spaces, then concatenating the chunks returned by
`_split_into_batches` with single spaces and re-normalizing whitespace,
yields exactly the normalized input text (round-trip reconstruction);
proved for every character budget. -/
theorem c1_roundtrip_reconstruction (text : List Char) (mc : Nat) :
    pyRenorm (joinSpace (split_into_batches text mc)) = pyRenorm text := by
  have h1 : wordsOf (joinSpace (split_into_batches text mc)) = wordsOf text := by
    rw [wordsOf_joinSpace, split_into_batches, batches_words, wordsOf_nil, List.nil_append]
    rw [splitSentences, (splitGo_words (normalizeText text)).2 []]
    rw [List.reverse_nil, List.nil_append, wordsOf_normalizeText]
  unfold pyRenorm
  rw [h1]

/-- Claim C2: for every input text and character budget, every chunk
returned by `_split_into_batches` whose length exceeds the budget
consists of exactly one (stripped) sentence of the normalized text. -/
theorem c2_oversized_chunk_is_single_sentence (text : List Char) (mc : Nat)
    (chunk : List Char) (hm : chunk ∈ split_into_batches text mc)
    (hlen : mc < chunk.length) :
    ∃ s ∈ splitSentences (normalizeText text), chunk = stripChars s := by
  rw [split_into_batches] at hm
  rcases batchesLoop_oversize mc _ [] chunk hm hlen with h | h
  · rw [h] at hlen
    exact absurd hlen (by simp)
  · exact h

/-- Witness for C2 at a concrete input: with budget 3 the text `"aaaa."`
produces the oversized chunk `"aaaa."`, which is a single sentence. -/
theorem c2_witness :
    ∃ s ∈ splitSentences (normalizeText "aaaa.".toList), "aaaa.".toList = stripChars s :=
  c2_oversized_chunk_is_single_sentence "aaaa.".toList 3 "aaaa.".toList (by decide) (by decide)

/-- Claim C4: the chunks are exactly the stripped non-empty sentences of
the normalized text, grouped in order: there is a partition `gs` of the
clean sentence list, in original order, whose space-joined groups are the
chunks.  In particular sentence order is preserved and each non-empty
sentence appears in exactly one chunk. -/
theorem c4_sentence_order_partition (text : List Char) (mc : Nat) :
    ∃ gs : List (List (List Char)),
      split_into_batches text mc = gs.map joinSpace ∧
      catAll gs = cleanSents (splitSentences (normalizeText text)) ∧
      ∀ g ∈ gs, g ≠ [] := by
  obtain ⟨gs, h1, h2, h3⟩ := batchesLoop_groups mc (splitSentences (normalizeText text)) []
    (by intro s hs; simp at hs)
  refine ⟨gs, ?_, ?_, fun g hg => (h3 g hg).1⟩
  · rw [split_into_batches]
    exact h1
  · simpa using h2

/-- Claim C5: every chunk is non-empty, and chunk boundaries occur only
at sentence boundaries: every chunk other than the last ends in `.`,
`!` or `?` (the terminator that was followed by whitespace in the
normalized text). -/
theorem c5_chunks_nonempty_sentence_boundaries (text : List Char) (mc : Nat) :
    (∀ b ∈ split_into_batches text mc, b ≠ []) ∧
    (∀ b ∈ (split_into_batches text mc).dropLast, b.getLast?.any isSentEnd = true) := by
  constructor
  · intro b hb
    rw [split_into_batches] at hb
    exact batchesLoop_mem_ne_nil mc _ [] b hb
  · intro b hb
    rw [split_into_batches] at hb
    refine batchesLoop_dropLast mc _ [] ?_ ?_ b hb
    · intro s hsm
      rw [splitSentences] at hsm
      have hSE := splitGo_dropLast (normalizeText text) (some []) s hsm
      obtain ⟨c, hc, hcse⟩ := any_getLast_sentEnd hSE
      rw [strip_getLast_eq hc (sentEnd_not_space hcse)]
      simpa [Option.any] using hcse
    · intro hcur _
      exact absurd rfl hcur

/-- Witness for C5 at a concrete input: for `"Hi. Yo."` with budget 3 the
chunks are `["Hi.", "Yo."]`; the first is non-empty and, being non-last,
ends in a sentence terminator. -/
theorem c5_witness :
    "Hi.".toList ≠ [] ∧ "Hi.".toList.getLast?.any isSentEnd = true :=
  ⟨(c5_chunks_nonempty_sentence_boundaries "Hi. Yo.".toList 3).1 _ (by decide),
   (c5_chunks_nonempty_sentence_boundaries "Hi. Yo.".toList 3).2 _ (by decide)⟩

/-- Claim C6: the example text splits into a single batch under budget
200; and any two 150-character sentences joined by a space split into
two separate batches under budget 200 (a "sentence" being a string that
strips to itself, contains no newline, is not split further by the
sentence splitter, and — for the first — ends in `.`, `!` or `?`). -/
theorem c6_example_batches :
    (split_into_batches "Hello there. This is a test! Really?".toList 200 =
      ["Hello there. This is a test! Really?".toList]) ∧
    (∀ s1 s2 : List Char, s1.length = 150 → s2.length = 150 →
      stripChars s1 = s1 → stripChars s2 = s2 →
      splitSentences s1 = [s1] → splitSentences s2 = [s2] →
      '\n' ∉ s1 → '\n' ∉ s2 →
      s1.getLast?.any isSentEnd = true →
      split_into_batches (s1 ++ ' ' :: s2) 200 = [s1, s2]) := by
  constructor
  · decide
  · intro s1 s2 h1 h2 hst1 hst2 hsp1 hsp2 hn1 hn2 hend
    have hne1 : s1 ≠ [] := by
      intro he
      rw [he] at h1
      simp at h1
    have hne2 : s2 ≠ [] := by
      intro he
      rw [he] at h2
      simp at h2
    have hh1 : ∀ c, s1.head? = some c → pyIsSpace c = false := by
      intro c hc
      exact strip_head_not (by rwa [hst1])
    have hh2 : ∀ c, s2.head? = some c → pyIsSpace c = false := by
      intro c hc
      exact strip_head_not (by rwa [hst2])
    have hl2 : ∀ c, s2.getLast? = some c → pyIsSpace c = false := by
      intro c hc
      exact strip_last_not (by rwa [hst2])
    have hstrip : stripChars (s1 ++ ' ' :: s2) = s1 ++ ' ' :: s2 := by
      refine strip_eq_self ?_ ?_
      · intro c hc
        rw [head_append_left hne1] at hc
        exact hh1 c hc
      · intro c hc
        rw [getLast_append_right (List.cons_ne_nil _ _), getLast_cons_ne_nil hne2] at hc
        exact hl2 c hc
    have hnn : '\n' ∉ (s1 ++ ' ' :: s2) := by
      intro hm
      rcases List.mem_append.mp hm with hm | hm
      · exact hn1 hm
      · rcases List.mem_cons.mp hm with he | hm
        · exact absurd he (by decide)
        · exact hn2 hm
    have hnorm : normalizeText (s1 ++ ' ' :: s2) = s1 ++ ' ' :: s2 := by
      rw [normalizeText, hstrip, normNewlines_no_nl hnn]
    have hsent : splitSentences (s1 ++ ' ' :: s2) = [s1, s2] := by
      rw [splitSentences]
      have hone : splitGo s1 (some []) = [([] : List Char).reverse ++ s1] := by
        rw [splitSentences] at hsp1
        rw [hsp1]
        simp
      rw [splitGo_append s1 [] hone (' ' :: s2), List.append_nil]
      have hcond : (pyIsSpace ' ' && (s1.reverse.head?).any isSentEnd) = true := by
        rw [List.head?_reverse, Bool.and_eq_true]
        exact ⟨by decide, hend⟩
      rw [show splitGo (' ' :: s2) (some s1.reverse) =
          if pyIsSpace ' ' && (s1.reverse.head?).any isSentEnd then
            s1.reverse.reverse :: splitGo s2 none
          else splitGo s2 (some (' ' :: s1.reverse)) from rfl]
      rw [if_pos hcond, List.reverse_reverse]
      congr 1
      cases hs2c : s2 with
      | nil => exact absurd hs2c hne2
      | cons h t =>
        have hh : ¬(pyIsSpace h = true) := by
          rw [hh2 h (by rw [hs2c]; rfl)]
          simp
        rw [show splitGo (h :: t) none =
          if pyIsSpace h then splitGo t none else splitGo t (some [h]) from rfl]
        rw [if_neg hh]
        rw [splitSentences, hs2c] at hsp2
        rw [show splitGo (h :: t) (some []) =
          if pyIsSpace h && (([] : List Char).head?).any isSentEnd then
            ([] : List Char).reverse :: splitGo t none
          else splitGo t (some [h]) from rfl] at hsp2
        rw [if_neg (by simp)] at hsp2
        rw [hsp2, ← hs2c]
    rw [split_into_batches, hnorm, hsent]
    rw [batchesLoop_merge_nil (by rw [hst1]; exact hne1) [s2]]
    rw [hst1]
    rw [batchesLoop_flush (by rw [hst2]; exact hne2) hne1
      (by rw [hst2, h1, h2]; decide) []]
    rw [hst2, batchesLoop_nil_ne hne2]

set_option maxRecDepth 40000 in
/-- Witness for C6's universally quantified part at concrete
150-character sentences. -/
theorem c6_witness :
    split_into_batches
      ((List.replicate 149 'a' ++ ['.']) ++ ' ' :: (List.replicate 149 'b' ++ ['?'])) 200 =
      [List.replicate 149 'a' ++ ['.'], List.replicate 149 'b' ++ ['?']] :=
  c6_example_batches.2 _ _ (by decide) (by decide) (by decide) (by decide) (by decide)
    (by decide) (by decide) (by decide) (by decide)

/-- Claim C3: for the chunk list of a narrate request, the gathered
segments are one per chunk, in original chunk order, and each segment is
determined solely by its own chunk's TTS outcome: a failed chunk yields
`audio = none` with the fixed non-null error, a successful chunk yields
its audio bytes and no error, independently of every other chunk. -/
theorem c3_partial_failure_isolation (α : Type) (k msg : Option (List Char))
    (mdl t : List Char) (up : Except (Option Nat) (List Char))
    (tts : List Char → Except (List Char) α) (ht : t ≠ []) :
    narrate k ⟨msg, some t, mdl⟩ up true tts =
      .ok ((split_into_batches t 200).map (processTtsBatch tts)) ∧
    ((split_into_batches t 200).map (processTtsBatch tts)).length =
      (split_into_batches t 200).length ∧
    ∀ i : Nat, ((split_into_batches t 200).map (processTtsBatch tts))[i]? =
      ((split_into_batches t 200)[i]?).map (fun c =>
        match tts c with
        | .ok a => { text := c, audio := some a, audio_type := wavType, error := none }
        | .error _ =>
          { text := c, audio := none, audio_type := wavType, error := some ttsFailDetail }) := by
  refine ⟨?_, List.length_map _ _, ?_⟩
  · simp [narrate, pyTruthy, isEmpty_false_of_ne_nil ht]
  · intro i
    rw [List.getElem?_map]
    cases h : (split_into_batches t 200)[i]? with
    | none => rfl
    | some c =>
      show some (processTtsBatch tts c) = _
      rfl

/-- Witness for C3 at a concrete input. -/
theorem c3_witness :
    narrate (α := Unit) none ⟨none, some "Hi.".toList, []⟩ (.ok []) true (fun _ => .ok ()) =
      .ok ((split_into_batches "Hi.".toList 200).map (processTtsBatch (fun _ => .ok ()))) :=
  (c3_partial_failure_isolation Unit none none [] "Hi.".toList (.ok [])
    (fun _ => .ok ()) (by decide)).1

/-- Claim C7: a missing chat API key makes `_generate_text` (hence a
chat request, and a narrate request that needs text generation) fail at
call time with a 503 error; startup (`lifespan`) does not depend on the
key at all; and a narrate request fails with 503 at call time when the
TTS client is unavailable. -/
theorem c7_missing_config_is_call_time_503 :
    (∀ (k : Option (List Char)) (up : Except (Option Nat) (List Char)),
      pyTruthy k = false → generate_text k up = .error ⟨503, keyMissingDetail⟩) ∧
    (∀ (α : Type) (k msg : Option (List Char)) (mdl : List Char)
      (up : Except (Option Nat) (List Char)) (g : Bool)
      (tts : List Char → Except (List Char) α),
      pyTruthy k = false → pyTruthy msg = true →
      narrate k ⟨msg, none, mdl⟩ up g tts = .error ⟨503, keyMissingDetail⟩) ∧
    (∀ (γ : Type) (k1 k2 : Option (List Char)) (clientInit : Except (List Char) γ),
      lifespan_startup k1 clientInit = lifespan_startup k2 clientInit) ∧
    (∀ (α : Type) (k msg : Option (List Char)) (mdl t : List Char)
      (up : Except (Option Nat) (List Char)) (tts : List Char → Except (List Char) α),
      t ≠ [] →
      narrate k ⟨msg, some t, mdl⟩ up false tts = .error ⟨503, ttsUnavailableDetail⟩) := by
  refine ⟨?_, ?_, ?_, ?_⟩
  · intro k up hk
    simp [generate_text, hk]
  · intro α k msg mdl up g tts hk hmsg
    have h0 : pyTruthy (none : Option (List Char)) = false := rfl
    have h503 : generate_text k up = Except.error ⟨503, keyMissingDetail⟩ := by
      simp [generate_text, hk]
    simp [narrate, h0, hmsg, h503]
  · intro γ k1 k2 clientInit
    cases clientInit <;> rfl
  · intro α k msg mdl t up tts ht
    simp [narrate, pyTruthy, isEmpty_false_of_ne_nil ht]

/-- Witness for C7 at concrete inputs. -/
theorem c7_witness :
    generate_text none (.ok []) = .error ⟨503, keyMissingDetail⟩ ∧
    narrate (α := Unit) none ⟨some ['h'], none, []⟩ (.ok []) true (fun _ => .ok ()) =
      .error ⟨503, keyMissingDetail⟩ ∧
    lifespan_startup (γ := Unit) none (.ok ()) = lifespan_startup (some ['k']) (.ok ()) ∧
    narrate (α := Unit) (some ['k']) ⟨none, some ['h'], []⟩ (.ok []) false (fun _ => .ok ()) =
      .error ⟨503, ttsUnavailableDetail⟩ :=
  ⟨c7_missing_config_is_call_time_503.1 none (.ok []) rfl,
   c7_missing_config_is_call_time_503.2.1 Unit none (some ['h']) [] (.ok []) true
     (fun _ => .ok ()) rfl rfl,
   c7_missing_config_is_call_time_503.2.2.1 Unit none (some ['k']) (.ok ()),
   c7_missing_config_is_call_time_503.2.2.2 Unit (some ['k']) none [] ['h'] (.ok [])
     (fun _ => .ok ()) (by decide)⟩

/-- Claim C8: when the `text` field is a non-empty string, the narration
text used is exactly that field and the chat completion step is never
invoked: the response is fully determined by `text`, the TTS client
availability and the TTS oracle, whatever the `message` field, the API
key and the upstream chat oracle are. -/
theorem c8_text_field_bypasses_chat (α : Type) (k msg : Option (List Char))
    (mdl t : List Char) (up : Except (Option Nat) (List Char)) (g : Bool)
    (tts : List Char → Except (List Char) α) (ht : t ≠ []) :
    narrate k ⟨msg, some t, mdl⟩ up g tts =
      if g then .ok ((split_into_batches t 200).map (processTtsBatch tts))
      else .error ⟨503, ttsUnavailableDetail⟩ := by
  simp [narrate, pyTruthy, isEmpty_false_of_ne_nil ht]

/-- Witness for C8 at a concrete input. -/
theorem c8_witness :
    narrate (α := Unit) none ⟨some ['z'], some "Hi.".toList, []⟩ (.error none) true
        (fun _ => .ok ()) =
      if true then
        .ok ((split_into_batches "Hi.".toList 200).map (processTtsBatch
          (fun _ => Except.ok ())))
      else .error ⟨503, ttsUnavailableDetail⟩ :=
  c8_text_field_bypasses_chat Unit none (some ['z']) [] "Hi.".toList (.error none) true
    (fun _ => .ok ()) (by decide)

/-- Claim C9 counterexample: for the empty input string the `text` field
is falsy, so a narrate request carrying it (with no `message`) is
answered with a 400 error rather than an empty segments list. -/
theorem c9_counterexample_empty_string :
    narrate (α := Unit) (some ['k']) ⟨none, some [], ['m']⟩ (.ok []) true (fun _ => .ok ()) =
      .error ⟨400, needTextDetail⟩ := rfl

/-- Claim C9 (amended): for every whitespace-only input (including the
empty string) `_split_into_batches` returns the empty list; and for
every NON-empty whitespace-only text, a narrate request on it (with the
TTS client available) succeeds with an empty segments list — the empty
string itself is falsy and instead falls through to the
`message`-or-400 branch. -/
theorem c9_whitespace_only_empty_batches (text : List Char) (mc : Nat)
    (h : ∀ c ∈ text, pyIsSpace c = true) :
    split_into_batches text mc = [] ∧
    (text ≠ [] → ∀ (α : Type) (k msg : Option (List Char)) (mdl : List Char)
      (up : Except (Option Nat) (List Char)) (tts : List Char → Except (List Char) α),
      narrate k ⟨msg, some text, mdl⟩ up true tts = .ok []) := by
  have hsb : ∀ m : Nat, split_into_batches text m = [] := by
    intro m
    rw [split_into_batches, normalizeText, strip_allspace h]
    rfl
  refine ⟨hsb mc, ?_⟩
  intro hne α k msg mdl up tts
  simp [narrate, pyTruthy, isEmpty_false_of_ne_nil hne, hsb 200]

/-- Witness for C9 (amended) at a concrete input. -/
theorem c9_witness :
    split_into_batches [' '] 7 = [] ∧
    narrate (α := Unit) none ⟨none, some [' '], []⟩ (.ok []) true (fun _ => .ok ()) =
      .ok [] :=
  ⟨(c9_whitespace_only_empty_batches [' '] 7 (by decide)).1,
   (c9_whitespace_only_empty_batches [' '] 7 (by decide)).2 (by decide) Unit none none []
     (.ok []) (fun _ => .ok ())⟩

/-- Claim C10 counterexample: a narrate request with a non-empty
`message` can still fail with HTTP status 400 — an upstream chat error
with status 400 is propagated — so "fails with a 400 error only if
neither field is provided" is false. -/
theorem c10_counterexample_upstream_400 :
    narrate (α := Unit) (some ['k']) ⟨some "hi".toList, none, ['m']⟩ (.error (some 400)) true
        (fun _ => .ok ()) = .error ⟨400, upstreamDetail⟩ ∧
      pyTruthy (some "hi".toList) = true :=
  ⟨rfl, rfl⟩

/-- Claim C10 (amended): a narrate request fails with the 400 error
`"Either message or text must be provided"` if and only if neither a
truthy `text` nor a truthy `message` is present; in that case the
response is this error for every upstream and TTS oracle and every
client state, so no text generation and no synthesis is attempted.
(A 400 status can also reach the caller by propagation of an upstream
chat 400, but with the upstream error detail.) -/
theorem c10_missing_input_400_iff (α : Type) (k : Option (List Char)) (p : NarrateRequest)
    (up : Except (Option Nat) (List Char)) (g : Bool)
    (tts : List Char → Except (List Char) α) :
    narrate k p up g tts = .error ⟨400, needTextDetail⟩ ↔
      pyTruthy p.text = false ∧ pyTruthy p.message = false := by
  obtain ⟨msg, txt, mdl⟩ := p
  show narrate k ⟨msg, txt, mdl⟩ up g tts = _ ↔ pyTruthy txt = false ∧ pyTruthy msg = false
  constructor
  · intro h
    by_cases htxt : pyTruthy txt = true
    · exfalso
      have hnar : narrate k ⟨msg, txt, mdl⟩ up g tts =
          if g then Except.ok ((split_into_batches (txt.getD []) 200).map (processTtsBatch tts))
          else Except.error ⟨503, ttsUnavailableDetail⟩ := by
        simp [narrate, htxt]
      rw [hnar] at h
      by_cases hg : g
      · rw [if_pos hg] at h
        exact absurd h (by simp)
      · rw [if_neg hg] at h
        simp at h
    · have htxtf : pyTruthy txt = false := by
        cases hb : pyTruthy txt
        · rfl
        · exact absurd hb htxt
      by_cases hmsg : pyTruthy msg = true
      · exfalso
        have hnar : narrate k ⟨msg, txt, mdl⟩ up g tts =
            match generate_text k up with
            | .error e => .error e
            | .ok t =>
              if g then Except.ok ((split_into_batches t 200).map (processTtsBatch tts))
              else Except.error ⟨503, ttsUnavailableDetail⟩ := by
          simp [narrate, htxtf, hmsg]
        rw [hnar] at h
        unfold generate_text at h
        by_cases hk : pyTruthy k = true
        · rw [if_pos hk] at h
          cases up with
          | ok t =>
            by_cases hg : g
            · simp [hg] at h
            · simp [hg] at h
          | error e =>
            cases e with
            | some code =>
              simp at h
              exact absurd h.2 (by decide)
            | none => simp at h
        · rw [if_neg hk] at h
          simp at h
      · have hmsgf : pyTruthy msg = false := by
          cases hb : pyTruthy msg
          · rfl
          · exact absurd hb hmsg
        exact ⟨htxtf, hmsgf⟩
  · rintro ⟨h1, h2⟩
    simp [narrate, h1, h2]
